import Mathlib

set_option maxHeartbeats 1000000

/-!
Shallow embedding of `utm.py`, a universal Turing machine simulator.

The tape (Python `Dict[int, str]`) is modelled as an association list of
(position, symbol) entries kept in increasing position order, which is the
canonical representation of a finite integer-keyed dictionary; reads default
to the blank symbol.  The run loop of `TuringMachine.run` is modelled by the
fuel-indexed function `TuringMachine.runAux` acting on a configuration
(tape, head, state, steps), with fuel `max_steps - steps`; Python's
`max_steps` may be any integer, and `Int.toNat` gives the same behaviour as
the `steps < max_steps` guard for negative budgets (the loop never runs).
-/

/-- Association-list lookup, the model of a Python dict lookup. -/
def alookup {κ α : Type} [DecidableEq κ] : List (κ × α) → κ → Option α
  | [], _ => none
  | e :: rest, k => if k = e.1 then some e.2 else alookup rest k

/-- A sparse tape: finitely many integer positions holding symbols. -/
abbrev Tape := List (Int × String)

/-- Model of `tape.get(head, self.blank)` (utm.py line 69): read with blank default. -/
def Tape.get (t : Tape) (p : Int) (blank : String) : String :=
  (alookup t p).getD blank

/-- Model of `tape[head] = write_symbol` (utm.py line 85): insert or overwrite,
keeping entries sorted by position (the canonical dictionary form). -/
def Tape.set : Tape → Int → String → Tape
  | [], p, s => [(p, s)]
  | (q, v) :: rest, p, s =>
    if p < q then (p, s) :: (q, v) :: rest
    else if p = q then (p, s) :: rest
    else (q, v) :: Tape.set rest p s

/-- Model of `tape.pop(head, None)` (utm.py line 83): remove the entry at a position. -/
def Tape.pop : Tape → Int → Tape
  | [], _ => []
  | (q, v) :: rest, p => if q = p then Tape.pop rest p else (q, v) :: Tape.pop rest p

/-- Head movement (utm.py lines 87-91): only "L" and "R" move the head,
any other direction string leaves it in place. -/
def moveHead (move : String) (head : Int) : Int :=
  if move = "L" then head - 1
  else if move = "R" then head + 1
  else head

/-- The transition-table key built at utm.py line 70: state and symbol joined by a colon. -/
def tmKey (state symbol : String) : String := state ++ ":" ++ symbol

/-- The machine description stored by `TuringMachine.__init__` (utm.py lines 40-49). -/
structure TuringMachine where
  states : List String
  alphabet : List String
  blank : String
  transitions : List (String × (String × String × String))
  start : String
  halt : String

/-- A configuration of the run loop: the mutable locals of `TuringMachine.run`. -/
structure Config where
  tape : Tape
  head : Int
  state : String
  steps : Nat

/-- One executed iteration of the loop body (utm.py lines 74-94), applied to a
looked-up transition triple (next_state, write_symbol, move). -/
def stepConfig (m : TuringMachine) (c : Config) (t : String × String × String) : Config :=
  { tape := if t.2.1 = m.blank then Tape.pop c.tape c.head else Tape.set c.tape c.head t.2.1
    head := moveHead t.2.2 c.head
    state := t.1
    steps := c.steps + 1 }

/-- The `while` loop of `TuringMachine.run` (utm.py lines 68-94), with fuel equal
to the number of loop iterations still allowed by the step budget. -/
def TuringMachine.runAux (m : TuringMachine) : Nat → Config → Config
  | 0, c => c
  | fuel + 1, c =>
    if c.state = m.halt then c
    else
      match alookup m.transitions (tmKey c.state (Tape.get c.tape c.head m.blank)) with
      | none => c
      | some t => m.runAux fuel (stepConfig m c t)

/-- `TuringMachine.run` (utm.py lines 51-95).  The `trace` flag only controls
printing in the source and has no effect on the returned value. -/
def TuringMachine.run (m : TuringMachine) (tape : Tape) (max_steps : Int) (trace : Bool) :
    Tape × Nat × String :=
  let c := m.runAux max_steps.toNat { tape := tape, head := 0, state := m.start, steps := 0 }
  (c.tape, c.steps, c.state)

/-- `parse_tape`'s enumeration loop (utm.py lines 100-103), carrying the next index. -/
def parseAux (blank : String) : List Char → Int → Tape
  | [], _ => []
  | ch :: rest, i =>
    if String.singleton ch = blank then parseAux blank rest (i + 1)
    else (i, String.singleton ch) :: parseAux blank rest (i + 1)

/-- `parse_tape` (utm.py lines 98-104): index the characters of the input,
skipping those equal to the blank symbol. -/
def parse_tape (input_str : String) (blank : String) : Tape :=
  parseAux blank input_str.data 0

/-- `tape_to_string` (utm.py lines 107-113): join the symbols from the minimum
to the maximum occupied position, filling gaps with the blank symbol. -/
def tape_to_string (t : Tape) (blank : String) : String :=
  match t with
  | [] => ""
  | e :: rest =>
    let min_pos := rest.foldl (fun a x => min a x.1) e.1
    let max_pos := rest.foldl (fun a x => max a x.1) e.1
    String.join ((List.range ((max_pos - min_pos).toNat + 1)).map
      (fun (k : Nat) => Tape.get t (min_pos + (k : Int)) blank))

/-- A configuration from which the loop can make no further progress: the state
is the halt state, or the transition table has no entry for the pair read. -/
def Stopped (m : TuringMachine) (c : Config) : Prop :=
  c.state = m.halt ∨
    alookup m.transitions (tmKey c.state (Tape.get c.tape c.head m.blank)) = none

/-- The tape representation invariant: no stored entry holds the blank symbol. -/
def TapeNoBlank (t : Tape) (blank : String) : Prop :=
  ∀ e ∈ t, e.2 ≠ blank

/-- Bool test for a character equal to the blank symbol. -/
def isBlankChar (b : String) (c : Char) : Bool := String.singleton c = b

/-- The input characters with leading and trailing blanks removed. -/
def trimBlanks (b : String) (l : List Char) : List Char :=
  (((l.dropWhile (isBlankChar b)).reverse.dropWhile (isBlankChar b)).reverse)

/-- The unary incrementer machine from the spec's first scenario. -/
def incMachine : TuringMachine :=
  { states := ["add", "done"]
    alphabet := ["1", "B"]
    blank := "B"
    transitions := [("add:1", ("add", "1", "R")), ("add:B", ("done", "1", "S"))]
    start := "add"
    halt := "done" }

/-- A machine with an empty transition table: stuck immediately. -/
def stuckMachine : TuringMachine :=
  { states := ["s", "h"]
    alphabet := []
    blank := "B"
    transitions := []
    start := "s"
    halt := "h" }

/-- A machine that reaches its halt state after exactly two steps on the empty tape. -/
def twoStepMachine : TuringMachine :=
  { states := ["a", "b", "done"]
    alphabet := ["B"]
    blank := "B"
    transitions := [("a:B", ("b", "B", "S")), ("b:B", ("done", "B", "S"))]
    start := "a"
    halt := "done" }

theorem runAux_zero (m : TuringMachine) (c : Config) : m.runAux 0 c = c := rfl

theorem runAux_succ (m : TuringMachine) (fuel : Nat) (c : Config) :
    m.runAux (fuel + 1) c =
      if c.state = m.halt then c
      else
        match alookup m.transitions (tmKey c.state (Tape.get c.tape c.head m.blank)) with
        | none => c
        | some t => m.runAux fuel (stepConfig m c t) := rfl

theorem runAux_succ_halt (m : TuringMachine) (fuel : Nat) (c : Config)
    (h : c.state = m.halt) : m.runAux (fuel + 1) c = c := by
  rw [runAux_succ, if_pos h]

theorem runAux_succ_stuck (m : TuringMachine) (fuel : Nat) (c : Config)
    (h1 : c.state ≠ m.halt)
    (h2 : alookup m.transitions (tmKey c.state (Tape.get c.tape c.head m.blank)) = none) :
    m.runAux (fuel + 1) c = c := by
  rw [runAux_succ, if_neg h1, h2]

theorem runAux_succ_step (m : TuringMachine) (fuel : Nat) (c : Config)
    (t : String × String × String) (h1 : c.state ≠ m.halt)
    (h2 : alookup m.transitions (tmKey c.state (Tape.get c.tape c.head m.blank)) = some t) :
    m.runAux (fuel + 1) c = m.runAux fuel (stepConfig m c t) := by
  rw [runAux_succ, if_neg h1, h2]

theorem runAux_of_stopped (m : TuringMachine) (c : Config) (h : Stopped m c) :
    ∀ fuel, m.runAux fuel c = c := by
  intro fuel
  induction fuel with
  | zero => rfl
  | succ n _ =>
    rcases h with h | h
    · exact runAux_succ_halt m n c h
    · by_cases hh : c.state = m.halt
      · exact runAux_succ_halt m n c hh
      · exact runAux_succ_stuck m n c hh h

theorem runAux_add (m : TuringMachine) (a b : Nat) (c : Config) :
    m.runAux (a + b) c = m.runAux b (m.runAux a c) := by
  induction a generalizing c with
  | zero => simp [runAux_zero]
  | succ n ih =>
    have hab : n + 1 + b = (n + b) + 1 := by omega
    rw [hab]
    by_cases hh : c.state = m.halt
    · rw [runAux_succ_halt m (n + b) c hh, runAux_succ_halt m n c hh,
        runAux_of_stopped m c (Or.inl hh)]
    · cases hl : alookup m.transitions (tmKey c.state (Tape.get c.tape c.head m.blank)) with
      | none =>
        rw [runAux_succ_stuck m (n + b) c hh hl, runAux_succ_stuck m n c hh hl,
          runAux_of_stopped m c (Or.inr hl)]
      | some t =>
        rw [runAux_succ_step m (n + b) c t hh hl, runAux_succ_step m n c t hh hl, ih]

theorem runAux_steps_le (m : TuringMachine) :
    ∀ (fuel : Nat) (c : Config),
      c.steps ≤ (m.runAux fuel c).steps ∧ (m.runAux fuel c).steps ≤ c.steps + fuel := by
  intro fuel
  induction fuel with
  | zero => intro c; simp [runAux_zero]
  | succ n ih =>
    intro c
    by_cases hh : c.state = m.halt
    · rw [runAux_succ_halt m n c hh]; omega
    · cases hl : alookup m.transitions (tmKey c.state (Tape.get c.tape c.head m.blank)) with
      | none => rw [runAux_succ_stuck m n c hh hl]; omega
      | some t =>
        rw [runAux_succ_step m n c t hh hl]
        have := ih (stepConfig m c t)
        have hs : (stepConfig m c t).steps = c.steps + 1 := rfl
        omega

theorem runAux_early_stopped (m : TuringMachine) :
    ∀ (fuel : Nat) (c : Config),
      (m.runAux fuel c).steps < c.steps + fuel → Stopped m (m.runAux fuel c) := by
  intro fuel
  induction fuel with
  | zero => intro c h; simp [runAux_zero] at h
  | succ n ih =>
    intro c h
    by_cases hh : c.state = m.halt
    · rw [runAux_succ_halt m n c hh]; exact Or.inl hh
    · cases hl : alookup m.transitions (tmKey c.state (Tape.get c.tape c.head m.blank)) with
      | none => rw [runAux_succ_stuck m n c hh hl]; exact Or.inr hl
      | some t =>
        rw [runAux_succ_step m n c t hh hl] at h ⊢
        have hs : (stepConfig m c t).steps = c.steps + 1 := rfl
        exact ih (stepConfig m c t) (by omega)

theorem runAux_halt_stopped (m : TuringMachine) (fuel : Nat) (c : Config)
    (h : (m.runAux fuel c).state = m.halt) : Stopped m (m.runAux fuel c) := Or.inl h

theorem runAux_trichotomy (m : TuringMachine) (fuel : Nat) (c : Config) :
    (m.runAux fuel c).state = m.halt ∨
      ((m.runAux fuel c).state ≠ m.halt ∧ (m.runAux fuel c).steps = c.steps + fuel) ∨
      ((m.runAux fuel c).state ≠ m.halt ∧ (m.runAux fuel c).steps < c.steps + fuel ∧
        ∃ hd, alookup m.transitions
          (tmKey (m.runAux fuel c).state (Tape.get (m.runAux fuel c).tape hd m.blank)) = none) := by
  by_cases hh : (m.runAux fuel c).state = m.halt
  · exact Or.inl hh
  · have bounds := runAux_steps_le m fuel c
    by_cases hs : (m.runAux fuel c).steps = c.steps + fuel
    · exact Or.inr (Or.inl ⟨hh, hs⟩)
    · have hlt : (m.runAux fuel c).steps < c.steps + fuel := by omega
      rcases runAux_early_stopped m fuel c hlt with h | h
      · exact absurd h hh
      · exact Or.inr (Or.inr ⟨hh, hlt, (m.runAux fuel c).head, h⟩)

/-- C1: when the run loop reads a (state, symbol) pair with no entry in the
transition table, it exits immediately: the configuration (tape, head, state,
steps) is returned unchanged by that iteration.  In particular a machine with
no transition for (start, blank) run on the empty tape returns steps 0, state
start, and an empty tape. -/
theorem run_undefined_transition_exit :
    (∀ (m : TuringMachine) (fuel : Nat) (c : Config),
        c.state ≠ m.halt →
        alookup m.transitions (tmKey c.state (Tape.get c.tape c.head m.blank)) = none →
        m.runAux (fuel + 1) c = c) ∧
    (∀ (m : TuringMachine) (ms : Int) (tr : Bool),
        m.start ≠ m.halt → 0 < ms →
        alookup m.transitions (tmKey m.start m.blank) = none →
        m.run [] ms tr = ([], 0, m.start)) := by
  constructor
  · intro m fuel c h1 h2
    exact runAux_succ_stuck m fuel c h1 h2
  · intro m ms tr hsh hms hl
    obtain ⟨k, hk⟩ : ∃ k, ms.toNat = k + 1 := ⟨ms.toNat - 1, by omega⟩
    have hfix : m.runAux ms.toNat ⟨[], 0, m.start, 0⟩ = ⟨[], 0, m.start, 0⟩ := by
      rw [hk]
      exact runAux_succ_stuck m k ⟨[], 0, m.start, 0⟩ hsh hl
    have hrun : m.run [] ms tr =
        ((m.runAux ms.toNat ⟨[], 0, m.start, 0⟩).tape,
         (m.runAux ms.toNat ⟨[], 0, m.start, 0⟩).steps,
         (m.runAux ms.toNat ⟨[], 0, m.start, 0⟩).state) := rfl
    rw [hrun, hfix]

theorem run_undefined_transition_exit_witness :
    stuckMachine.runAux 3 ⟨[(0, "x")], 0, "s", 0⟩ = ⟨[(0, "x")], 0, "s", 0⟩ ∧
    stuckMachine.run [] 5 false = ([], 0, "s") :=
  ⟨run_undefined_transition_exit.1 stuckMachine 2 ⟨[(0, "x")], 0, "s", 0⟩ (by decide) rfl,
   run_undefined_transition_exit.2 stuckMachine 5 false (by decide) (by decide) rfl⟩

/-- C2: for a step budget that is at least 0, the run loop exits via exactly one
of three mutually exclusive conditions, distinguishable from the returned
(tape, steps, state): the final state equals halt (normal halt); the final
state differs from halt and steps equals max_steps (budget exceeded); or the
final state differs from halt, steps is strictly below max_steps, and the
transition table has no entry for the final state with some read symbol
(undefined-transition halt). -/
theorem run_exit_trichotomy (m : TuringMachine) (tape : Tape) (ms : Int) (tr : Bool)
    (h : 0 ≤ ms) :
    ((m.run tape ms tr).2.2 = m.halt ∨
      ((m.run tape ms tr).2.2 ≠ m.halt ∧ ((m.run tape ms tr).2.1 : Int) = ms) ∨
      ((m.run tape ms tr).2.2 ≠ m.halt ∧ ((m.run tape ms tr).2.1 : Int) < ms ∧
        ∃ hd, alookup m.transitions
          (tmKey (m.run tape ms tr).2.2 (Tape.get (m.run tape ms tr).1 hd m.blank)) = none)) ∧
    ((m.run tape ms tr).2.2 = m.halt →
      ¬((m.run tape ms tr).2.2 ≠ m.halt ∧ ((m.run tape ms tr).2.1 : Int) = ms) ∧
      ¬((m.run tape ms tr).2.2 ≠ m.halt ∧ ((m.run tape ms tr).2.1 : Int) < ms)) ∧
    (((m.run tape ms tr).2.1 : Int) = ms → ¬(((m.run tape ms tr).2.1 : Int) < ms)) := by
  have hsteps : (m.run tape ms tr).2.1 = (m.runAux ms.toNat ⟨tape, 0, m.start, 0⟩).steps := rfl
  have hstate : (m.run tape ms tr).2.2 = (m.runAux ms.toNat ⟨tape, 0, m.start, 0⟩).state := rfl
  have htape : (m.run tape ms tr).1 = (m.runAux ms.toNat ⟨tape, 0, m.start, 0⟩).tape := rfl
  rw [hsteps, hstate, htape]
  have tri := runAux_trichotomy m ms.toNat ⟨tape, 0, m.start, 0⟩
  have hms : ((ms.toNat : Nat) : Int) = ms := Int.toNat_of_nonneg h
  have c0steps : (Config.mk tape 0 m.start 0).steps = 0 := rfl
  refine ⟨?_, ?_, ?_⟩
  · rcases tri with h1 | ⟨h1, h2⟩ | ⟨h1, h2, hd, h3⟩
    · exact Or.inl h1
    · exact Or.inr (Or.inl ⟨h1, by omega⟩)
    · exact Or.inr (Or.inr ⟨h1, by omega, hd, h3⟩)
  · intro h1
    exact ⟨fun hc => hc.1 h1, fun hc => hc.1 h1⟩
  · intro h1
    omega

theorem run_exit_trichotomy_witness :
    (incMachine.run [] 5 false).2.2 = incMachine.halt ∨
      ((incMachine.run [] 5 false).2.2 ≠ incMachine.halt ∧
        ((incMachine.run [] 5 false).2.1 : Int) = 5) ∨
      ((incMachine.run [] 5 false).2.2 ≠ incMachine.halt ∧
        ((incMachine.run [] 5 false).2.1 : Int) < 5 ∧
        ∃ hd, alookup incMachine.transitions
          (tmKey (incMachine.run [] 5 false).2.2
            (Tape.get (incMachine.run [] 5 false).1 hd incMachine.blank)) = none) :=
  (run_exit_trichotomy incMachine [] 5 false (by decide)).1

/-- C7: run is deterministic — it is a pure function of the machine, the
initial tape, and the step budget; the trace flag does not influence the
returned (final tape, steps, state). -/
theorem run_deterministic (m : TuringMachine) (t1 t2 : Tape) (ms1 ms2 : Int)
    (tr1 tr2 : Bool) (ht : t1 = t2) (hms : ms1 = ms2) :
    m.run t1 ms1 tr1 = m.run t2 ms2 tr2 := by
  subst ht
  subst hms
  rfl

theorem run_deterministic_witness :
    incMachine.run [(0, "1")] 3 true = incMachine.run [(0, "1")] 3 false :=
  run_deterministic incMachine [(0, "1")] [(0, "1")] 3 3 true false rfl rfl

/-- C9: head movement in the run loop: "L" decrements the head, "R" increments
it, and every other direction string (including "S", "X" or the empty string)
leaves the head unchanged; no direction value is rejected.  The executed loop
iteration `stepConfig` moves the head exactly by `moveHead`. -/
theorem moveHead_direction_semantics :
    (∀ (mv : String) (hd : Int), mv ≠ "L" → mv ≠ "R" → moveHead mv hd = hd) ∧
    (∀ hd : Int, moveHead "L" hd = hd - 1) ∧
    (∀ hd : Int, moveHead "R" hd = hd + 1) ∧
    (∀ (m : TuringMachine) (c : Config) (t : String × String × String),
      (stepConfig m c t).head = moveHead t.2.2 c.head) := by
  refine ⟨?_, ?_, ?_, ?_⟩
  · intro mv hd h1 h2
    unfold moveHead
    rw [if_neg h1, if_neg h2]
  · intro hd
    unfold moveHead
    rw [if_pos rfl]
  · intro hd
    unfold moveHead
    rw [if_neg (by decide), if_pos rfl]
  · intro m c t
    rfl

theorem moveHead_direction_semantics_witness :
    moveHead "S" 7 = 7 ∧ moveHead "X" 7 = 7 ∧ moveHead "" 7 = 7 :=
  ⟨moveHead_direction_semantics.1 "S" 7 (by decide) (by decide),
   moveHead_direction_semantics.1 "X" 7 (by decide) (by decide),
   moveHead_direction_semantics.1 "" 7 (by decide) (by decide)⟩

theorem runAux_budget_mono (m : TuringMachine) (c : Config) (f1 f2 : Nat) (h : f1 ≤ f2)
    (hE : (m.runAux f1 c).state = m.halt ∨ (m.runAux f1 c).steps < c.steps + f1) :
    m.runAux f2 c = m.runAux f1 c := by
  have hstop : Stopped m (m.runAux f1 c) := by
    rcases hE with h1 | h1
    · exact Or.inl h1
    · exact runAux_early_stopped m f1 c h1
  obtain ⟨d, rfl⟩ : ∃ d, f2 = f1 + d := ⟨f2 - f1, by omega⟩
  rw [runAux_add, runAux_of_stopped m _ hstop]

/-- C3 counterexample: on `twoStepMachine` (which halts after exactly two steps)
with budgets m1 = 1 and m2 = 10, the budget-1 run is neither a normal halt nor
an early stop, yet the budget-10 run returns a step count (namely 2) equal to
neither budget — refuting the claim's clause that the larger run then returns
steps equal to whichever budget was used. -/
theorem run_budget_monotonicity_cex :
    ((twoStepMachine.run [] 1 false).2.2 ≠ twoStepMachine.halt ∧
      ¬(((twoStepMachine.run [] 1 false).2.1 : Int) < 1)) ∧
    ((twoStepMachine.run [] 10 false).2.1 : Int) ≠ 10 ∧
    ((twoStepMachine.run [] 10 false).2.1 : Int) ≠ 1 := by
  decide

/-- C3 (amended): for budgets 0 ≤ m1 ≤ m2, if the run with budget m1 ends in
the halt state or with a step count strictly below m1, the run with budget m2
returns the identical (tape, steps, state).  Otherwise the run with budget m1
used exactly m1 steps, and the run with budget m2 returns a step count between
m1 and m2 and itself ends by normal halt, by exhausting m2 steps, or by an
undefined transition below m2 steps. -/
theorem run_budget_monotonicity (m : TuringMachine) (tape : Tape) (m1 m2 : Int) (tr : Bool)
    (h0 : 0 ≤ m1) (h12 : m1 ≤ m2) :
    (((m.run tape m1 tr).2.2 = m.halt ∨ ((m.run tape m1 tr).2.1 : Int) < m1) →
        m.run tape m2 tr = m.run tape m1 tr) ∧
    (¬((m.run tape m1 tr).2.2 = m.halt ∨ ((m.run tape m1 tr).2.1 : Int) < m1) →
        ((m.run tape m1 tr).2.1 : Int) = m1 ∧
        m1 ≤ ((m.run tape m2 tr).2.1 : Int) ∧ ((m.run tape m2 tr).2.1 : Int) ≤ m2 ∧
        ((m.run tape m2 tr).2.2 = m.halt ∨ ((m.run tape m2 tr).2.1 : Int) = m2 ∨
          (((m.run tape m2 tr).2.1 : Int) < m2 ∧
            ∃ hd, alookup m.transitions
              (tmKey (m.run tape m2 tr).2.2
                (Tape.get (m.run tape m2 tr).1 hd m.blank)) = none))) := by
  have hms1 : ((m1.toNat : Nat) : Int) = m1 := Int.toNat_of_nonneg h0
  have hms2 : ((m2.toNat : Nat) : Int) = m2 := Int.toNat_of_nonneg (le_trans h0 h12)
  have hf : m1.toNat ≤ m2.toNat := by omega
  have hs1 : (m.run tape m1 tr).2.1 = (m.runAux m1.toNat ⟨tape, 0, m.start, 0⟩).steps := rfl
  have hq1 : (m.run tape m1 tr).2.2 = (m.runAux m1.toNat ⟨tape, 0, m.start, 0⟩).state := rfl
  have hs2 : (m.run tape m2 tr).2.1 = (m.runAux m2.toNat ⟨tape, 0, m.start, 0⟩).steps := rfl
  have hq2 : (m.run tape m2 tr).2.2 = (m.runAux m2.toNat ⟨tape, 0, m.start, 0⟩).state := rfl
  have ht2 : (m.run tape m2 tr).1 = (m.runAux m2.toNat ⟨tape, 0, m.start, 0⟩).tape := rfl
  have bounds1 := runAux_steps_le m m1.toNat ⟨tape, 0, m.start, 0⟩
  have bounds2 := runAux_steps_le m m2.toNat ⟨tape, 0, m.start, 0⟩
  have c0steps : (Config.mk tape 0 m.start 0).steps = 0 := rfl
  constructor
  · intro hE
    have heq : m.runAux m2.toNat ⟨tape, 0, m.start, 0⟩ =
        m.runAux m1.toNat ⟨tape, 0, m.start, 0⟩ := by
      apply runAux_budget_mono m _ m1.toNat m2.toNat hf
      rcases hE with h1 | h1
      · rw [hq1] at h1
        exact Or.inl h1
      · rw [hs1] at h1
        right
        omega
    show ((m.runAux m2.toNat ⟨tape, 0, m.start, 0⟩).tape,
          (m.runAux m2.toNat ⟨tape, 0, m.start, 0⟩).steps,
          (m.runAux m2.toNat ⟨tape, 0, m.start, 0⟩).state) =
        ((m.runAux m1.toNat ⟨tape, 0, m.start, 0⟩).tape,
          (m.runAux m1.toNat ⟨tape, 0, m.start, 0⟩).steps,
          (m.runAux m1.toNat ⟨tape, 0, m.start, 0⟩).state)
    rw [heq]
  · intro hN
    push_neg at hN
    obtain ⟨hq, hlt⟩ := hN
    rw [hq1] at hq
    rw [hs1] at hlt
    have hsteps1 : ((m.runAux m1.toNat ⟨tape, 0, m.start, 0⟩).steps : Int) = m1 := by omega
    refine ⟨by rw [hs1]; exact hsteps1, ?_, ?_, ?_⟩
    · obtain ⟨d, hd2⟩ : ∃ d, m2.toNat = m1.toNat + d := ⟨m2.toNat - m1.toNat, by omega⟩
      have hBA : m.runAux m2.toNat ⟨tape, 0, m.start, 0⟩ =
          m.runAux d (m.runAux m1.toNat ⟨tape, 0, m.start, 0⟩) := by
        rw [hd2, runAux_add]
      have hlow := (runAux_steps_le m d (m.runAux m1.toNat ⟨tape, 0, m.start, 0⟩)).1
      rw [hs2, hBA]
      omega
    · rw [hs2]
      omega
    · rw [hq2, hs2, ht2]
      rcases runAux_trichotomy m m2.toNat ⟨tape, 0, m.start, 0⟩ with
        h1 | ⟨h1, h2⟩ | ⟨h1, h2, hd, h3⟩
      · exact Or.inl h1
      · exact Or.inr (Or.inl (by omega))
      · exact Or.inr (Or.inr ⟨by omega, hd, h3⟩)

theorem run_budget_monotonicity_witness :
    incMachine.run [] 5 false = incMachine.run [] 2 false :=
  (run_budget_monotonicity incMachine [] 2 5 false (by decide) (by decide)).1
    (Or.inl (by decide))

/-- C4: the unary incrementer machine run on the tape parsed from "111", with
any step budget of at least 4 (in particular the default 10000), executes
exactly 4 steps, ends in state done, and its final tape renders to "1111". -/
theorem incrementer_scenario (ms : Int) (h : 4 ≤ ms) :
    (incMachine.run (parse_tape "111" "B") ms false).2.1 = 4 ∧
    (incMachine.run (parse_tape "111" "B") ms false).2.2 = "done" ∧
    tape_to_string (incMachine.run (parse_tape "111" "B") ms false).1 "B" = "1111" := by
  have h4 : incMachine.runAux 4 ⟨parse_tape "111" "B", 0, incMachine.start, 0⟩ =
      ⟨[(0, "1"), (1, "1"), (2, "1"), (3, "1")], 3, "done", 4⟩ := rfl
  obtain ⟨d, hd⟩ : ∃ d, ms.toNat = 4 + d := ⟨ms.toNat - 4, by omega⟩
  have hfix : incMachine.runAux ms.toNat ⟨parse_tape "111" "B", 0, incMachine.start, 0⟩ =
      ⟨[(0, "1"), (1, "1"), (2, "1"), (3, "1")], 3, "done", 4⟩ := by
    rw [hd, runAux_add, h4]
    exact runAux_of_stopped incMachine ⟨[(0, "1"), (1, "1"), (2, "1"), (3, "1")], 3, "done", 4⟩
      (Or.inl rfl) d
  have hproj : incMachine.run (parse_tape "111" "B") ms false =
      ((incMachine.runAux ms.toNat ⟨parse_tape "111" "B", 0, incMachine.start, 0⟩).tape,
       (incMachine.runAux ms.toNat ⟨parse_tape "111" "B", 0, incMachine.start, 0⟩).steps,
       (incMachine.runAux ms.toNat ⟨parse_tape "111" "B", 0, incMachine.start, 0⟩).state) := rfl
  rw [hproj, hfix]
  exact ⟨rfl, rfl, rfl⟩

theorem incrementer_scenario_witness :
    (incMachine.run (parse_tape "111" "B") 10000 false).2.1 = 4 ∧
    (incMachine.run (parse_tape "111" "B") 10000 false).2.2 = "done" ∧
    tape_to_string (incMachine.run (parse_tape "111" "B") 10000 false).1 "B" = "1111" :=
  incrementer_scenario 10000 (by decide)

/-- C8: run is total — under a nonnegative budget it always delivers its
outcome as an ordinary return value (a tape, a step count bounded by the
budget, and a state), and every tape read is total because an absent position
defaults to the blank symbol. -/
theorem run_total_returns :
    (∀ (t : Tape) (p : Int) (b : String), alookup t p = none → Tape.get t p b = b) ∧
    (∀ (m : TuringMachine) (tape : Tape) (ms : Int) (tr : Bool), 0 ≤ ms →
      ∃ t' s q, m.run tape ms tr = (t', s, q) ∧ (s : Int) ≤ ms) := by
  constructor
  · intro t p b hnone
    unfold Tape.get
    rw [hnone]
    rfl
  · intro m tape ms tr h
    refine ⟨(m.run tape ms tr).1, (m.run tape ms tr).2.1, (m.run tape ms tr).2.2, rfl, ?_⟩
    have hs : (m.run tape ms tr).2.1 = (m.runAux ms.toNat ⟨tape, 0, m.start, 0⟩).steps := rfl
    have bounds := runAux_steps_le m ms.toNat ⟨tape, 0, m.start, 0⟩
    have c0steps : (Config.mk tape 0 m.start 0).steps = 0 := rfl
    have hms : ((ms.toNat : Nat) : Int) = ms := Int.toNat_of_nonneg h
    rw [hs]
    omega

theorem run_total_returns_witness :
    Tape.get [] 0 "B" = "B" ∧
    ∃ t' s q, stuckMachine.run [(0, "x")] 3 false = (t', s, q) ∧ (s : Int) ≤ 3 :=
  ⟨run_total_returns.1 [] 0 "B" rfl,
   run_total_returns.2 stuckMachine [(0, "x")] 3 false (by decide)⟩

theorem alookup_pop (t : Tape) (p : Int) : alookup (Tape.pop t p) p = none := by
  induction t with
  | nil => rfl
  | cons e rest ih =>
    obtain ⟨q, v⟩ := e
    by_cases h : q = p
    · simp only [Tape.pop, if_pos h]
      exact ih
    · simp only [Tape.pop, if_neg h, alookup]
      rw [if_neg (fun hpq => h hpq.symm)]
      exact ih

theorem get_set (t : Tape) (p : Int) (s b : String) : Tape.get (Tape.set t p s) p b = s := by
  induction t with
  | nil => simp [Tape.set, Tape.get, alookup]
  | cons e rest ih =>
    obtain ⟨q, v⟩ := e
    by_cases h1 : p < q
    · simp [Tape.set, if_pos h1, Tape.get, alookup]
    · by_cases h2 : p = q
      · simp [Tape.set, if_neg h1, if_pos h2, Tape.get, alookup]
      · simp only [Tape.set, if_neg h1, if_neg h2]
        simpa [Tape.get, alookup, h2] using ih

theorem mem_pop (t : Tape) (p : Int) (e : Int × String) (h : e ∈ Tape.pop t p) : e ∈ t := by
  induction t with
  | nil => simpa [Tape.pop] using h
  | cons f rest ih =>
    obtain ⟨q, v⟩ := f
    by_cases hq : q = p
    · simp only [Tape.pop, if_pos hq] at h
      exact List.mem_cons_of_mem _ (ih h)
    · simp only [Tape.pop, if_neg hq] at h
      rcases List.mem_cons.mp h with h1 | h1
      · exact h1 ▸ List.mem_cons_self _ _
      · exact List.mem_cons_of_mem _ (ih h1)

theorem mem_set (t : Tape) (p : Int) (s : String) (e : Int × String)
    (h : e ∈ Tape.set t p s) : e = (p, s) ∨ e ∈ t := by
  induction t with
  | nil =>
    simp only [Tape.set] at h
    rcases List.mem_cons.mp h with h1 | h1
    · exact Or.inl h1
    · simp at h1
  | cons f rest ih =>
    obtain ⟨q, v⟩ := f
    by_cases h1 : p < q
    · simp only [Tape.set, if_pos h1] at h
      rcases List.mem_cons.mp h with h2 | h2
      · exact Or.inl h2
      · exact Or.inr h2
    · by_cases h2 : p = q
      · simp only [Tape.set, if_neg h1, if_pos h2] at h
        rcases List.mem_cons.mp h with h3 | h3
        · exact Or.inl h3
        · exact Or.inr (List.mem_cons_of_mem _ h3)
      · simp only [Tape.set, if_neg h1, if_neg h2] at h
        rcases List.mem_cons.mp h with h3 | h3
        · exact Or.inr (h3 ▸ List.mem_cons_self _ _)
        · rcases ih h3 with h4 | h4
          · exact Or.inl h4
          · exact Or.inr (List.mem_cons_of_mem _ h4)

theorem parseAux_noBlank (b : String) :
    ∀ (l : List Char) (i : Int), TapeNoBlank (parseAux b l i) b := by
  intro l
  induction l with
  | nil =>
    intro i e he
    simp [parseAux] at he
  | cons ch rest ih =>
    intro i e he
    by_cases hc : String.singleton ch = b
    · simp only [parseAux, if_pos hc] at he
      exact ih (i + 1) e he
    · simp only [parseAux, if_neg hc] at he
      rcases List.mem_cons.mp he with h1 | h1
      · rw [h1]
        exact hc
      · exact ih (i + 1) e h1

theorem stepConfig_noBlank (m : TuringMachine) (c : Config) (t : String × String × String)
    (h : TapeNoBlank c.tape m.blank) : TapeNoBlank (stepConfig m c t).tape m.blank := by
  intro e he
  by_cases hw : t.2.1 = m.blank
  · have htp : (stepConfig m c t).tape = Tape.pop c.tape c.head := by
      simp [stepConfig, if_pos hw]
    rw [htp] at he
    exact h e (mem_pop c.tape c.head e he)
  · have htp : (stepConfig m c t).tape = Tape.set c.tape c.head t.2.1 := by
      simp [stepConfig, if_neg hw]
    rw [htp] at he
    rcases mem_set c.tape c.head t.2.1 e he with h1 | h1
    · rw [h1]
      exact hw
    · exact h e h1

theorem runAux_noBlank (m : TuringMachine) :
    ∀ (fuel : Nat) (c : Config), TapeNoBlank c.tape m.blank →
      TapeNoBlank (m.runAux fuel c).tape m.blank := by
  intro fuel
  induction fuel with
  | zero => intro c h; exact h
  | succ n ih =>
    intro c h
    by_cases hh : c.state = m.halt
    · rw [runAux_succ_halt m n c hh]
      exact h
    · cases hl : alookup m.transitions (tmKey c.state (Tape.get c.tape c.head m.blank)) with
      | none =>
        rw [runAux_succ_stuck m n c hh hl]
        exact h
      | some t =>
        rw [runAux_succ_step m n c t hh hl]
        exact ih _ (stepConfig_noBlank m c t h)

/-- C6: the tape invariant "no stored entry holds the blank symbol" — writing
blank removes the position's entry (so a subsequent read yields blank via the
default) and writing non-blank stores it; parse_tape establishes the invariant
and the run loop preserves it, so run returns a tape with no blank entries. -/
theorem tape_blank_invariant :
    (∀ (t : Tape) (p : Int) (b : String),
        alookup (Tape.pop t p) p = none ∧ Tape.get (Tape.pop t p) p b = b) ∧
    (∀ (t : Tape) (p : Int) (s b : String), Tape.get (Tape.set t p s) p b = s) ∧
    (∀ (s b : String), TapeNoBlank (parse_tape s b) b) ∧
    (∀ (m : TuringMachine) (tape : Tape) (ms : Int) (tr : Bool),
        TapeNoBlank tape m.blank → TapeNoBlank (m.run tape ms tr).1 m.blank) := by
  refine ⟨?_, ?_, ?_, ?_⟩
  · intro t p b
    refine ⟨alookup_pop t p, ?_⟩
    unfold Tape.get
    rw [alookup_pop t p]
    rfl
  · intro t p s b
    exact get_set t p s b
  · intro s b
    exact parseAux_noBlank b s.data 0
  · intro m tape ms tr h
    have hproj : (m.run tape ms tr).1 = (m.runAux ms.toNat ⟨tape, 0, m.start, 0⟩).tape := rfl
    rw [hproj]
    exact runAux_noBlank m ms.toNat ⟨tape, 0, m.start, 0⟩ h

theorem tape_blank_invariant_witness :
    Tape.get (Tape.pop [(0, "B")] 0) 0 "B" = "B" ∧
    TapeNoBlank (incMachine.run [(0, "1")] 3 false).1 incMachine.blank :=
  ⟨(tape_blank_invariant.1 [(0, "B")] 0 "B").2,
   tape_blank_invariant.2.2.2 incMachine [(0, "1")] 3 false
     (by unfold TapeNoBlank; decide)⟩

theorem alookup_cons {κ α : Type} [DecidableEq κ] (q : κ) (v : α) (rest : List (κ × α))
    (k : κ) : alookup ((q, v) :: rest) k = if k = q then some v else alookup rest k := rfl

theorem parseAux_append (b : String) :
    ∀ (u v : List Char) (i : Int),
      parseAux b (u ++ v) i = parseAux b u i ++ parseAux b v (i + (u.length : Int)) := by
  intro u
  induction u with
  | nil =>
    intro v i
    simp [parseAux]
  | cons c rest ih =>
    intro v i
    have harith : i + 1 + (rest.length : Int) = i + ((c :: rest).length : Int) := by
      push_cast [List.length_cons]
      ring
    rw [List.cons_append]
    by_cases hc : String.singleton c = b
    · simp only [parseAux, if_pos hc]
      rw [ih v (i + 1), harith]
    · simp only [parseAux, if_neg hc]
      rw [ih v (i + 1), harith]
      rw [List.cons_append]

theorem parseAux_all_blank (b : String) :
    ∀ (l : List Char) (i : Int), (∀ c ∈ l, String.singleton c = b) → parseAux b l i = [] := by
  intro l
  induction l with
  | nil => intro i _; rfl
  | cons c rest ih =>
    intro i h
    have hc : String.singleton c = b := h c (List.mem_cons_self _ _)
    simp only [parseAux, if_pos hc]
    exact ih (i + 1) (fun x hx => h x (List.mem_cons_of_mem _ hx))

theorem parseAux_key_ge (b : String) :
    ∀ (l : List Char) (i : Int), ∀ e ∈ parseAux b l i, i ≤ e.1 := by
  intro l
  induction l with
  | nil =>
    intro i e he
    simp [parseAux] at he
  | cons c rest ih =>
    intro i e he
    by_cases hc : String.singleton c = b
    · simp only [parseAux, if_pos hc] at he
      have := ih (i + 1) e he
      omega
    · simp only [parseAux, if_neg hc] at he
      rcases List.mem_cons.mp he with h1 | h1
      · subst h1
        exact le_rfl
      · have := ih (i + 1) e h1
        omega

theorem parseAux_key_lt (b : String) :
    ∀ (l : List Char) (i : Int), ∀ e ∈ parseAux b l i, e.1 < i + (l.length : Int) := by
  intro l
  induction l with
  | nil =>
    intro i e he
    simp [parseAux] at he
  | cons c rest ih =>
    intro i e he
    have hlen : ((c :: rest).length : Int) = (rest.length : Int) + 1 := by
      push_cast [List.length_cons]
      ring
    rw [hlen]
    by_cases hc : String.singleton c = b
    · simp only [parseAux, if_pos hc] at he
      have := ih (i + 1) e he
      omega
    · simp only [parseAux, if_neg hc] at he
      rcases List.mem_cons.mp he with h1 | h1
      · subst h1
        have hn : (0 : Int) ≤ (rest.length : Int) := by positivity
        simp only []
        omega
      · have := ih (i + 1) e h1
        omega

theorem alookup_parseAux_lt (b : String) :
    ∀ (l : List Char) (i p : Int), p < i → alookup (parseAux b l i) p = none := by
  intro l
  induction l with
  | nil => intro i p _; rfl
  | cons c rest ih =>
    intro i p h
    by_cases hc : String.singleton c = b
    · simp only [parseAux, if_pos hc]
      exact ih (i + 1) p (by omega)
    · simp only [parseAux, if_neg hc]
      rw [alookup_cons, if_neg (by omega)]
      exact ih (i + 1) p (by omega)

theorem alookup_parseAux (b : String) :
    ∀ (l : List Char) (i : Int) (k : Nat) (hk : k < l.length),
      alookup (parseAux b l i) (i + (k : Int)) =
        if String.singleton (l.get ⟨k, hk⟩) = b then none
        else some (String.singleton (l.get ⟨k, hk⟩)) := by
  intro l
  induction l with
  | nil =>
    intro i k hk
    simp at hk
  | cons c rest ih =>
    intro i k hk
    cases k with
    | zero =>
      have hg : (c :: rest).get ⟨0, hk⟩ = c := rfl
      by_cases hc : String.singleton c = b
      · simp only [parseAux, if_pos hc]
        rw [alookup_parseAux_lt b rest (i + 1) _ (by omega), hg, if_pos hc]
      · simp only [parseAux, if_neg hc]
        rw [alookup_cons, if_pos (by omega), hg, if_neg hc]
    | succ n =>
      have hk2 : n + 1 < rest.length + 1 := by simpa using hk
      have hkr : n < rest.length := by omega
      have hg : (c :: rest).get ⟨n + 1, hk⟩ = rest.get ⟨n, hkr⟩ := rfl
      have hkk : i + ((n + 1 : Nat) : Int) = (i + 1) + (n : Int) := by
        push_cast
        ring
      by_cases hc : String.singleton c = b
      · simp only [parseAux, if_pos hc]
        rw [hkk, ih (i + 1) n hkr, hg]
      · simp only [parseAux, if_neg hc]
        rw [alookup_cons, if_neg (by omega), hkk, ih (i + 1) n hkr, hg]

theorem foldl_min_eq (l : List (Int × String)) :
    ∀ a : Int, (∀ x ∈ l, a ≤ x.1) → l.foldl (fun acc x => min acc x.1) a = a := by
  induction l with
  | nil => intro a _; rfl
  | cons e rest ih =>
    intro a h
    have h1 : a ≤ e.1 := h e (List.mem_cons_self _ _)
    simp only [List.foldl_cons]
    rw [min_eq_left h1]
    exact ih a (fun x hx => h x (List.mem_cons_of_mem _ hx))

theorem foldl_max_eq (l : List (Int × String)) :
    ∀ (a M : Int), a ≤ M → (∀ x ∈ l, x.1 ≤ M) → (M = a ∨ ∃ x ∈ l, x.1 = M) →
      l.foldl (fun acc x => max acc x.1) a = M := by
  induction l with
  | nil =>
    intro a M _ _ h3
    rcases h3 with h3 | h3
    · rw [List.foldl_nil]
      exact h3.symm
    · simp at h3
  | cons e rest ih =>
    intro a M h1 h2 h3
    simp only [List.foldl_cons]
    have he : e.1 ≤ M := h2 e (List.mem_cons_self _ _)
    have hacc : max a e.1 ≤ M := max_le h1 he
    have hrest : ∀ y ∈ rest, y.1 ≤ M := fun y hy => h2 y (List.mem_cons_of_mem _ hy)
    rcases h3 with h3 | h3
    · apply ih (max a e.1) M hacc hrest
      left
      have hle : a ≤ max a e.1 := le_max_left a e.1
      omega
    · obtain ⟨x, hx, hxM⟩ := h3
      rcases List.mem_cons.mp hx with h4 | h4
      · apply ih (max a e.1) M hacc hrest
        left
        rw [h4] at hxM
        have hle : e.1 ≤ max a e.1 := le_max_right a e.1
        omega
      · exact ih (max a e.1) M hacc hrest (Or.inr ⟨x, h4, hxM⟩)

theorem str_data_append (s t : String) : (s ++ t).data = s.data ++ t.data := by
  obtain ⟨sd⟩ := s
  obtain ⟨td⟩ := t
  rfl

theorem foldl_append_singleton :
    ∀ (l : List Char) (s : String),
      List.foldl (fun r x => r ++ x) s (l.map String.singleton) = String.mk (s.data ++ l) := by
  intro l
  induction l with
  | nil =>
    intro s
    simp only [List.map_nil, List.foldl_nil, List.append_nil]
  | cons c rest ih =>
    intro s
    simp only [List.map_cons, List.foldl_cons]
    rw [ih (s ++ String.singleton c)]
    congr 1
    rw [str_data_append]
    have hsd : (String.singleton c).data = [c] := rfl
    rw [hsd]
    simp [List.append_assoc]

theorem join_map_singleton (l : List Char) :
    String.join (l.map String.singleton) = String.mk l := by
  unfold String.join
  rw [foldl_append_singleton l ""]
  rfl

theorem range_map_get :
    ∀ (l : List Char) (g : Nat → String),
      (∀ (k : Nat) (hk : k < l.length), g k = String.singleton (l.get ⟨k, hk⟩)) →
      (List.range l.length).map g = l.map String.singleton := by
  intro l
  induction l with
  | nil => intro g _; rfl
  | cons c rest ih =>
    intro g hg
    have hr : List.range (c :: rest).length = 0 :: (List.range rest.length).map Nat.succ := by
      rw [List.length_cons]
      exact List.range_succ_eq_map rest.length
    rw [hr]
    simp only [List.map_cons, List.map_map]
    have hhead : g 0 = String.singleton c := hg 0 (Nat.succ_pos _)
    have htail : (List.range rest.length).map (g ∘ Nat.succ) = rest.map String.singleton :=
      ih (g ∘ Nat.succ) (fun k hk => hg (k + 1) (Nat.succ_lt_succ hk))
    rw [hhead, htail]

theorem dropWhile_head_not (p : Char → Bool) :
    ∀ (l : List Char) (c : Char), (l.dropWhile p).head? = some c → p c = false := by
  intro l
  induction l with
  | nil =>
    intro c h
    simp [List.dropWhile] at h
  | cons d rest ih =>
    intro c h
    by_cases hd : p d
    · rw [List.dropWhile_cons_of_pos hd] at h
      exact ih c h
    · rw [List.dropWhile_cons_of_neg hd] at h
      simp only [List.head?_cons, Option.some.injEq] at h
      subst h
      simpa using hd

theorem tapeToString_parseAux (b : String) (core : List Char) (i : Int) (hne : core ≠ [])
    (hhead : String.singleton (core.head hne) ≠ b)
    (hlast : String.singleton (core.getLast hne) ≠ b) :
    tape_to_string (parseAux b core i) b = String.mk core := by
  cases core with
  | nil => exact absurd rfl hne
  | cons c mid =>
  have hc : String.singleton c ≠ b := hhead
  have hsplit : parseAux b (c :: mid) i = (i, String.singleton c) :: parseAux b mid (i + 1) := by
    simp only [parseAux, if_neg hc]
  have hmin : (parseAux b mid (i + 1)).foldl (fun a x => min a x.1) i = i := by
    apply foldl_min_eq
    intro x hx
    have := parseAux_key_ge b mid (i + 1) x hx
    omega
  have hmax : (parseAux b mid (i + 1)).foldl (fun a x => max a x.1) i =
      i + (mid.length : Int) := by
    apply foldl_max_eq
    · have hn : (0 : Int) ≤ (mid.length : Int) := by positivity
      omega
    · intro x hx
      have h1 := parseAux_key_lt b mid (i + 1) x hx
      omega
    · cases mid with
      | nil => left; simp
      | cons d mid2 =>
        right
        have hmidne : (d :: mid2) ≠ [] := by simp
        have hlast2 : String.singleton ((d :: mid2).getLast hmidne) ≠ b := by
          have hgl : (c :: d :: mid2).getLast hne = (d :: mid2).getLast hmidne :=
            List.getLast_cons hmidne
          rw [hgl] at hlast
          exact hlast
        have hdecomp : (d :: mid2).dropLast ++ [(d :: mid2).getLast hmidne] = d :: mid2 :=
          List.dropLast_append_getLast hmidne
        refine ⟨((i + 1) + ((d :: mid2).dropLast.length : Int),
          String.singleton ((d :: mid2).getLast hmidne)), ?_, ?_⟩
        · have hform : parseAux b (d :: mid2) (i + 1) =
              parseAux b (d :: mid2).dropLast (i + 1) ++
                [((i + 1) + ((d :: mid2).dropLast.length : Int),
                  String.singleton ((d :: mid2).getLast hmidne))] := by
            conv_lhs => rw [← hdecomp]
            rw [parseAux_append]
            congr 1
            simp only [parseAux, if_neg hlast2]
          rw [hform]
          exact List.mem_append_right _ (List.mem_cons_self _ _)
        · show (i + 1) + ((d :: mid2).dropLast.length : Int) = i + ((d :: mid2).length : Int)
          have hdl : (d :: mid2).dropLast.length = (d :: mid2).length - 1 :=
            List.length_dropLast _
          have hlen : (d :: mid2).length = mid2.length + 1 := List.length_cons _ _
          rw [hdl, hlen]
          have hsub : mid2.length + 1 - 1 = mid2.length := rfl
          rw [hsub]
          omega
  have hexp : tape_to_string ((i, String.singleton c) :: parseAux b mid (i + 1)) b =
      String.join ((List.range
        ((((parseAux b mid (i + 1)).foldl (fun a x => max a x.1) i) -
            ((parseAux b mid (i + 1)).foldl (fun a x => min a x.1) i)).toNat + 1)).map
        (fun (k : Nat) => Tape.get ((i, String.singleton c) :: parseAux b mid (i + 1))
          (((parseAux b mid (i + 1)).foldl (fun a x => min a x.1) i) + (k : Int)) b)) := rfl
  rw [hsplit, hexp, hmin, hmax]
  have hlen2 : ((i + (mid.length : Int)) - i).toNat + 1 = mid.length + 1 := by omega
  rw [hlen2]
  rw [← join_map_singleton (c :: mid)]
  congr 1
  have hlc : mid.length + 1 = (c :: mid).length := rfl
  rw [hlc]
  apply range_map_get (c :: mid)
  intro k hk
  rw [← hsplit]
  unfold Tape.get
  rw [alookup_parseAux b (c :: mid) i k hk]
  by_cases hcb : String.singleton ((c :: mid).get ⟨k, hk⟩) = b
  · rw [if_pos hcb, hcb]
    rfl
  · rw [if_neg hcb]
    rfl

theorem getLast_eq_of_eq {l1 l2 : List Char} (h : l1 = l2) (h1 : l1 ≠ []) (h2 : l2 ≠ []) :
    l1.getLast h1 = l2.getLast h2 := by
  subst h
  rfl

theorem getLast_reverse_eq_head (x : List Char) (hx : x ≠ []) (hr : x.reverse ≠ []) :
    x.reverse.getLast hr = x.head hx := by
  have h1 : x.reverse.getLast? = some (x.reverse.getLast hr) := List.getLast?_eq_getLast _ hr
  have h2 : x.reverse.getLast? = x.head? := List.getLast?_reverse x
  have h3 : x.head? = some (x.head hx) := List.head?_eq_head hx
  rw [h2, h3] at h1
  exact (Option.some_inj.mp h1).symm

theorem head_reverse_eq_getLast (x : List Char) (hx : x ≠ []) (hr : x.reverse ≠ []) :
    x.reverse.head hr = x.getLast hx := by
  have h1 : x.reverse.head? = some (x.reverse.head hr) := List.head?_eq_head hr
  have h2 : x.reverse.head? = x.getLast? := List.head?_reverse x
  have h3 : x.getLast? = some (x.getLast hx) := List.getLast?_eq_getLast x hx
  rw [h2, h3] at h1
  exact (Option.some_inj.mp h1).symm

theorem getLast_dropWhile (p : Char → Bool) :
    ∀ (l : List Char) (h : l.dropWhile p ≠ []) (hl : l ≠ []),
      (l.dropWhile p).getLast h = l.getLast hl := by
  intro l
  induction l with
  | nil =>
    intro _ hl
    exact absurd rfl hl
  | cons c rest ih =>
    intro h hl
    by_cases hc : p c
    · have h' : rest.dropWhile p ≠ [] := by
        rwa [List.dropWhile_cons_of_pos hc] at h
      have hrne : rest ≠ [] := by
        intro hnil
        subst hnil
        simp [List.dropWhile] at h'
      rw [getLast_eq_of_eq (List.dropWhile_cons_of_pos hc) h h', ih h' hrne]
      exact (List.getLast_cons hrne).symm
    · exact getLast_eq_of_eq (List.dropWhile_cons_of_neg hc) h hl

theorem tapeToString_parse_trim (b : String) (l : List Char) :
    tape_to_string (parseAux b l 0) b = String.mk (trimBlanks b l) := by
  by_cases hall : ∀ c ∈ l, String.singleton c = b
  · rw [parseAux_all_blank b l 0 hall]
    have htrim : trimBlanks b l = [] := by
      unfold trimBlanks
      have h1 : l.dropWhile (isBlankChar b) = [] := by
        rw [List.dropWhile_eq_nil_iff]
        intro x hx
        unfold isBlankChar
        exact decide_eq_true (hall x hx)
      rw [h1]
      rfl
    rw [htrim]
    rfl
  · push_neg at hall
    obtain ⟨c0, hc0mem, hc0⟩ := hall
    have hl1 : l.dropWhile (isBlankChar b) ≠ [] := by
      intro hnil
      rw [List.dropWhile_eq_nil_iff] at hnil
      have := hnil c0 hc0mem
      unfold isBlankChar at this
      exact hc0 (of_decide_eq_true this)
    have hl1head : isBlankChar b ((l.dropWhile (isBlankChar b)).head hl1) = false :=
      dropWhile_head_not (isBlankChar b) l _ (List.head?_eq_head hl1)
    have hyne : (l.dropWhile (isBlankChar b)).reverse.dropWhile (isBlankChar b) ≠ [] := by
      intro hnil
      rw [List.dropWhile_eq_nil_iff] at hnil
      have hmem : (l.dropWhile (isBlankChar b)).head hl1 ∈
          (l.dropWhile (isBlankChar b)).reverse := by
        rw [List.mem_reverse]
        exact List.head_mem hl1
      have := hnil _ hmem
      rw [hl1head] at this
      exact Bool.false_ne_true this
    have hcore_ne :
        ((l.dropWhile (isBlankChar b)).reverse.dropWhile (isBlankChar b)).reverse ≠ [] := by
      rw [Ne, List.reverse_eq_nil_iff]
      exact hyne
    have hl1rev_ne : (l.dropWhile (isBlankChar b)).reverse ≠ [] := by
      rw [Ne, List.reverse_eq_nil_iff]
      exact hl1
    have hcore_head : String.singleton
        ((((l.dropWhile (isBlankChar b)).reverse.dropWhile (isBlankChar b)).reverse).head
          hcore_ne) ≠ b := by
      have e1 : (((l.dropWhile (isBlankChar b)).reverse.dropWhile
            (isBlankChar b)).reverse).head hcore_ne =
          ((l.dropWhile (isBlankChar b)).reverse.dropWhile (isBlankChar b)).getLast hyne :=
        head_reverse_eq_getLast _ hyne hcore_ne
      have e2 : ((l.dropWhile (isBlankChar b)).reverse.dropWhile
            (isBlankChar b)).getLast hyne =
          ((l.dropWhile (isBlankChar b)).reverse).getLast hl1rev_ne :=
        getLast_dropWhile (isBlankChar b) _ hyne hl1rev_ne
      have e3 : ((l.dropWhile (isBlankChar b)).reverse).getLast hl1rev_ne =
          (l.dropWhile (isBlankChar b)).head hl1 :=
        getLast_reverse_eq_head _ hl1 hl1rev_ne
      rw [e1, e2, e3]
      intro hcontra
      have hbt : isBlankChar b ((l.dropWhile (isBlankChar b)).head hl1) = true := by
        unfold isBlankChar
        exact decide_eq_true hcontra
      rw [hl1head] at hbt
      exact Bool.false_ne_true hbt
    have hy_head : isBlankChar b
        (((l.dropWhile (isBlankChar b)).reverse.dropWhile (isBlankChar b)).head hyne) =
          false :=
      dropWhile_head_not (isBlankChar b) (l.dropWhile (isBlankChar b)).reverse _
        (List.head?_eq_head hyne)
    have hcore_last : String.singleton
        ((((l.dropWhile (isBlankChar b)).reverse.dropWhile (isBlankChar b)).reverse).getLast
          hcore_ne) ≠ b := by
      have e1 : (((l.dropWhile (isBlankChar b)).reverse.dropWhile
            (isBlankChar b)).reverse).getLast hcore_ne =
          ((l.dropWhile (isBlankChar b)).reverse.dropWhile (isBlankChar b)).head hyne :=
        getLast_reverse_eq_head _ hyne hcore_ne
      rw [e1]
      intro hcontra
      have hbt : isBlankChar b
          (((l.dropWhile (isBlankChar b)).reverse.dropWhile (isBlankChar b)).head hyne) =
            true := by
        unfold isBlankChar
        exact decide_eq_true hcontra
      rw [hy_head] at hbt
      exact Bool.false_ne_true hbt
    have hdec1 : parseAux b l 0 =
        parseAux b (l.dropWhile (isBlankChar b))
          (((l.takeWhile (isBlankChar b)).length : Int)) := by
      conv_lhs => rw [← List.takeWhile_append_dropWhile (isBlankChar b) l]
      rw [parseAux_append]
      have hlead : parseAux b (l.takeWhile (isBlankChar b)) 0 = [] := by
        apply parseAux_all_blank
        intro x hx
        have := List.mem_takeWhile_imp hx
        unfold isBlankChar at this
        exact of_decide_eq_true this
      rw [hlead]
      simp
    have hdec2 : (((l.dropWhile (isBlankChar b)).reverse.dropWhile (isBlankChar b)).reverse) ++
        (((l.dropWhile (isBlankChar b)).reverse.takeWhile (isBlankChar b)).reverse) =
          l.dropWhile (isBlankChar b) := by
      rw [← List.reverse_append, List.takeWhile_append_dropWhile, List.reverse_reverse]
    have hdec3 : parseAux b (l.dropWhile (isBlankChar b))
        (((l.takeWhile (isBlankChar b)).length : Int)) =
        parseAux b (((l.dropWhile (isBlankChar b)).reverse.dropWhile (isBlankChar b)).reverse)
          (((l.takeWhile (isBlankChar b)).length : Int)) := by
      conv_lhs => rw [← hdec2]
      rw [parseAux_append]
      have htail : ∀ j : Int,
          parseAux b (((l.dropWhile (isBlankChar b)).reverse.takeWhile
            (isBlankChar b)).reverse) j = [] := by
        intro j
        apply parseAux_all_blank
        intro x hx
        rw [List.mem_reverse] at hx
        have := List.mem_takeWhile_imp hx
        unfold isBlankChar at this
        exact of_decide_eq_true this
      rw [htail]
      simp
    rw [hdec1, hdec3]
    rw [tapeToString_parseAux b
      (((l.dropWhile (isBlankChar b)).reverse.dropWhile (isBlankChar b)).reverse)
      (((l.takeWhile (isBlankChar b)).length : Int)) hcore_ne hcore_head hcore_last]
    rfl

/-- C5: for every non-empty input string s and every blank symbol b occurring
nowhere among the characters of s, rendering the tape parsed from s with blank
b yields s again. -/
theorem render_parse_roundtrip (s b : String) (hne : s ≠ "")
    (hb : ∀ c ∈ s.data, String.singleton c ≠ b) :
    tape_to_string (parse_tape s b) b = s := by
  have hdata : s.data ≠ [] := by
    intro h
    apply hne
    have heta : s = String.mk s.data := rfl
    rw [heta, h]
  have hhead : String.singleton (s.data.head hdata) ≠ b := hb _ (List.head_mem hdata)
  have hlast : String.singleton (s.data.getLast hdata) ≠ b := hb _ (List.getLast_mem hdata)
  unfold parse_tape
  rw [tapeToString_parseAux b s.data 0 hdata hhead hlast]

theorem render_parse_roundtrip_witness :
    tape_to_string (parse_tape "ab" "B") "B" = "ab" :=
  render_parse_roundtrip "ab" "B" (by decide) (by decide)

/-- C10: for an input string s containing the blank symbol b among its
characters, the round trip renders s with all leading and trailing blanks
removed (interior blanks are reproduced by gap filling); in particular a
string of only blanks renders to the empty string. -/
theorem render_parse_trim_roundtrip (s b : String)
    (hb : ∃ c ∈ s.data, String.singleton c = b) :
    tape_to_string (parse_tape s b) b = String.mk (trimBlanks b s.data) ∧
    ((∀ c ∈ s.data, String.singleton c = b) → tape_to_string (parse_tape s b) b = "") := by
  constructor
  · exact tapeToString_parse_trim b s.data
  · intro hall
    unfold parse_tape
    rw [parseAux_all_blank b s.data 0 hall]
    rfl

theorem render_parse_trim_roundtrip_witness :
    tape_to_string (parse_tape "BaB" "B") "B" = String.mk (trimBlanks "B" "BaB".data) :=
  (render_parse_trim_roundtrip "BaB" "B" (by decide)).1
